import Mathlib

/-!
Verification of the pyspecs Entity-Component-System runtime as used by the
`bouncy_world` notebook.  Entities are natural-number identifiers, a component
storage is an insertion-ordered association from entity to component instance
(the semantics of a Python `dict`), `join` iterates a driving storage and
probes the others, and a `World` owns storages, an ordered system list and an
entity allocator.  The concrete `MovementSystem` / `BounceSystem` definitions
are translated from the notebook source; the runtime core itself is not part
of the repository snapshot and is modelled from the specification.
-/

namespace PySpecs

/-- Modelled from the spec: `ComponentStorage<C>` (spec section 4.2), the core
`pyspecs` storage class being absent from the snapshot.  A storage owns a
mapping entity to instance for one component kind; iteration order is
insertion order, matching a Python `dict`. -/
structure Storage (α : Type) where
  data : List (Nat × α)
deriving Repr, DecidableEq

/-- Lookup of the first binding of key `e` in an association list. -/
def lookupKey (e : Nat) : List (Nat × α) → Option α
  | [] => none
  | p :: rest => if p.1 = e then some p.2 else lookupKey e rest

/-- Membership test for key `e` in an association list. -/
def containsKey (e : Nat) : List (Nat × α) → Bool
  | [] => false
  | p :: rest => if p.1 = e then true else containsKey e rest

/-- Replace every binding of key `e` by `(e, c)`, keeping its position
(the behaviour of a Python `dict` on re-assignment of an existing key). -/
def replaceKey (e : Nat) (c : α) : List (Nat × α) → List (Nat × α)
  | [] => []
  | p :: rest => if p.1 = e then (e, c) :: replaceKey e c rest
                 else p :: replaceKey e c rest

/-- Delete every binding of key `e` (the behaviour of `del d[e]` on a `dict`
holding each key once). -/
def eraseKey (e : Nat) : List (Nat × α) → List (Nat × α)
  | [] => []
  | p :: rest => if p.1 = e then eraseKey e rest else p :: eraseKey e rest

/-- Modelled from the spec: `get(e)` returns the instance for `e` if present;
absence is an ordinary `none` result. -/
def Storage.get (s : Storage α) (e : Nat) : Option α :=
  lookupKey e s.data

/-- Modelled from the spec: `insert(e, c)` associates `c` with `e`; if `e`
already has an instance of this kind the previous instance is replaced
(last-write-wins), otherwise the binding is appended in insertion order. -/
def Storage.insert (s : Storage α) (e : Nat) (c : α) : Storage α :=
  if containsKey e s.data then ⟨replaceKey e c s.data⟩
  else ⟨s.data ++ [(e, c)]⟩

/-- Modelled from the spec: `remove(e)` deletes the association if present;
removing an absent entity is a no-op. -/
def Storage.remove (s : Storage α) (e : Nat) : Storage α :=
  ⟨eraseKey e s.data⟩

/-- Modelled from the spec: `iterate()` yields the currently held
(entity, instance) pairs in the storage's iteration order. -/
def Storage.iterate (s : Storage α) : List (Nat × α) :=
  s.data

/-- The entity identifiers currently held by a storage, in iteration order. -/
def Storage.keys (s : Storage α) : List Nat :=
  s.data.map Prod.fst

/-- The empty storage. -/
def Storage.empty : Storage α :=
  ⟨[]⟩

/-- Modelled from the spec: the join engine (spec section 4.3) over two
storages for distinct kinds: iterate the driving storage `s1` and for each
candidate entity probe membership in `s2`, emitting only full matches, in the
driving storage's iteration order. -/
def Storage.join2 (s1 : Storage α) (s2 : Storage β) : List (Nat × α × β) :=
  s1.data.filterMap (fun p => (s2.get p.1).map (fun b => (p.1, p.2, b)))

/-- Probe a list of storages for entity `e` in order, short-circuiting on the
first miss, collecting the instances on a full match. -/
def probeAll (e : Nat) : List (Storage β) → Option (List β)
  | [] => some []
  | s :: rest =>
      match s.get e with
      | none => none
      | some b => (probeAll e rest).map (fun bs => b :: bs)

/-- Modelled from the spec: the n-ary join engine (spec section 4.3), driven
by its first storage argument: iterate the driving storage and for each
candidate entity probe membership in the remaining storages in order,
short-circuiting on the first miss; emit only full matches. -/
def Storage.joinMany (s : Storage α) (others : List (Storage β)) :
    List (Nat × α × List β) :=
  s.data.filterMap (fun p => (probeAll p.1 others).map (fun bs => (p.1, p.2, bs)))

/-- Modelled from the spec: the `EntityAllocator` (spec section 4.1), issuing
monotonically increasing, previously-unused entity identifiers from an
internal counter. -/
structure EntityAllocator where
  next : Nat
deriving Repr, DecidableEq

/-- Modelled from the spec: `create()` returns a previously-unused identifier
and advances the allocator's counter. -/
def EntityAllocator.create (a : EntityAllocator) : Nat × EntityAllocator :=
  (a.next, ⟨a.next + 1⟩)

/-- The identifiers issued by `n` successive `create()` calls, in order,
together with the allocator state left behind. -/
def EntityAllocator.createMany (a : EntityAllocator) :
    Nat → List Nat × EntityAllocator
  | 0 => ([], a)
  | n + 1 =>
      let (e, a') := a.create
      let (rest, a'') := a'.createMany n
      (e :: rest, a'')

/-- Modelled from the spec: a `System` (spec section 4.4) over component
kinds `κ` with a uniform component-value type `V`: a declared list of
required kinds, and a `run` operation receiving exactly the storages for the
declared kinds, in the declared order, and returning their updated
contents. -/
structure SystemM (κ V : Type) where
  data : List κ
  run : List (Storage V) → List (Storage V)

/-- Modelled from the spec: the `World` (spec section 4.5): the mapping from
component kind to its storage, the ordered list of registered systems, and
the entity allocator. -/
structure World (κ V : Type) where
  storages : κ → Storage V
  systems : List (SystemM κ V)
  alloc : EntityAllocator

/-- Write the updated storages a system returned back into the world's
kind-to-storage mapping, matching them positionally with the system's
declared kinds. -/
def writeBack [DecidableEq κ] (st : κ → Storage V) (ks : List κ)
    (outs : List (Storage V)) : κ → Storage V :=
  (ks.zip outs).foldl (fun acc q => fun k => if k = q.1 then q.2 else acc k) st

/-- Invoke one system: pass it the storages for its declared kinds, in
declared order, and write the results back. -/
def invoke [DecidableEq κ] (st : κ → Storage V) (sys : SystemM κ V) :
    κ → Storage V :=
  writeBack st sys.data (sys.run (sys.data.map st))

/-- Execute a list of systems in order over the kind-to-storage mapping. -/
def runSystems [DecidableEq κ] (systems : List (SystemM κ V))
    (st : κ → Storage V) : κ → Storage V :=
  systems.foldl invoke st

/-- Modelled from the spec: `World.run()` executes every registered system
once, in registration order, each with its declared storages. -/
def World.run [DecidableEq κ] (w : World κ V) : World κ V :=
  { w with storages := runSystems w.systems w.storages }

/-- Instrumented execution: besides the final kind-to-storage mapping,
record, per invocation in order, which system was invoked and the storage
arguments passed to it. -/
def runSystemsLog [DecidableEq κ] (systems : List (SystemM κ V))
    (st : κ → Storage V) :
    (κ → Storage V) × List (SystemM κ V × List (Storage V)) :=
  match systems with
  | [] => (st, [])
  | sys :: rest =>
      let args := sys.data.map st
      let next := runSystemsLog rest (invoke st sys)
      (next.1, (sys, args) :: next.2)

/-- Modelled from the spec: `create_entity()` delegates to the entity
allocator and does not touch any storage. -/
def World.create_entity (w : World κ V) : Nat × World κ V :=
  let (e, a') := w.alloc.create
  (e, { w with alloc := a' })

/-- The identifiers issued by `n` successive `create_entity()` calls on a
world, in order, with the resulting world. -/
def World.createN (w : World κ V) : Nat → List Nat × World κ V
  | 0 => ([], w)
  | n + 1 =>
      let (e, w') := w.create_entity
      let (rest, w'') := w'.createN n
      (e :: rest, w'')

/-- The `Position` component of the notebook: a 2-d point `p`.  The notebook
initialises it with random reals in the 50 by 50 box; the field is kept
abstract here as a pair of rationals. -/
structure Position where
  p : ℚ × ℚ
deriving Repr, DecidableEq

/-- The `Velocity` component of the notebook: a 2-d vector `v`. -/
structure Velocity where
  v : ℚ × ℚ
deriving Repr, DecidableEq

/-- One joined update step of `MovementSystem.run`: the body
`pos.p[0] += vel.v[0]; pos.p[1] += vel.v[1]` of the notebook's loop. -/
def movementBody (pos : Position) (vel : Velocity) : Position :=
  ⟨(pos.p.1 + vel.v.1, pos.p.2 + vel.v.2)⟩

/-- Translation of `MovementSystem.run` from the notebook: for every joined
(entity, position, velocity) triple, add the velocity componentwise to the
position, in place; velocities are untouched. -/
def MovementSystem.run (positions : Storage Position)
    (velocities : Storage Velocity) :
    Storage Position × Storage Velocity :=
  ((Storage.join2 positions velocities).foldl
      (fun acc t => acc.insert t.1 (movementBody t.2.1 t.2.2)) positions,
   velocities)

/-- One joined update step of `BounceSystem.run`: negate `v[0]` when
`p[0] <= 0 or p[0] >= 50`, and independently negate `v[1]` when
`p[1] <= 0 or p[1] >= 50`. -/
def bounceBody (pos : Position) (vel : Velocity) : Velocity :=
  ⟨(if pos.p.1 ≤ 0 ∨ 50 ≤ pos.p.1 then -vel.v.1 else vel.v.1,
    if pos.p.2 ≤ 0 ∨ 50 ≤ pos.p.2 then -vel.v.2 else vel.v.2)⟩

/-- Translation of `BounceSystem.run` from the notebook: for every joined
(entity, position, velocity) triple, reflect the velocity components whose
position coordinate is out of the `[0, 50]` box, in place; positions are
untouched. -/
def BounceSystem.run (positions : Storage Position)
    (velocities : Storage Velocity) :
    Storage Position × Storage Velocity :=
  (positions,
   (Storage.join2 positions velocities).foldl
      (fun acc t => acc.insert t.1 (bounceBody t.2.1 t.2.2)) velocities)

/-- One pass of the notebook's initialization loop over the remaining entity
identifiers: insert a position and a velocity component for each. -/
def initStateAux (pIni vIni : Nat → ℚ × ℚ) :
    List Nat → Storage Position × Storage Velocity →
      Storage Position × Storage Velocity
  | [], st => st
  | e :: rest, (sp, sv) =>
      initStateAux pIni vIni rest (sp.insert e ⟨pIni e⟩, sv.insert e ⟨vIni e⟩)

/-- The notebook's initialization loop: for each allocated entity, insert a
position and a velocity component into the respective stores, with component
values given by the (notebook-random) sequences `pIni`, `vIni`. -/
def initState (ents : List Nat) (pIni vIni : Nat → ℚ × ℚ) :
    Storage Position × Storage Velocity :=
  initStateAux pIni vIni ents (Storage.empty, Storage.empty)

/-- One `bouncy_world.run()` tick: `MovementSystem` then `BounceSystem`, in
registration order. -/
def bouncyTick (st : Storage Position × Storage Velocity) :
    Storage Position × Storage Velocity :=
  let m := MovementSystem.run st.1 st.2
  BounceSystem.run m.1 m.2

/-- The result of joining one entity: the full tuple when both probes hit,
nothing otherwise. -/
def joinSpec (e : Nat) (oa : Option α) (ob : Option β) :
    Option (Nat × α × β) :=
  match oa, ob with
  | some a, some b => some (e, a, b)
  | _, _ => none

/-- A single storage operation of the replay model: an insert or a remove. -/
inductive StorageOp (α : Type) where
  | ins (e : Nat) (c : α)
  | rem (e : Nat)
deriving Repr, DecidableEq

/-- Apply one operation to a storage. -/
def applyOp (s : Storage α) : StorageOp α → Storage α
  | .ins e c => s.insert e c
  | .rem e => s.remove e

/-- Replay a finite sequence of operations on an initially empty storage. -/
def replay (ops : List (StorageOp α)) : Storage α :=
  ops.foldl applyOp Storage.empty

/-- Last-write reference semantics, from the spec's words: the instance from
the last `insert(e, c)` not followed by a `remove(e)`, absence otherwise. -/
def lastWrite (e : Nat) (ops : List (StorageOp α)) : Option α :=
  ops.foldl
    (fun acc op =>
      match op with
      | .ins e' c => if e' = e then some c else acc
      | .rem e' => if e' = e then none else acc)
    none

/-- A sample component-kind tag type for concrete instantiations. -/
inductive SampleKind where
  | posK
  | velK
deriving Repr, DecidableEq

/-- A sample system touching one declared kind, leaving storages as given. -/
def sampleSystem : SystemM SampleKind Nat :=
  ⟨[SampleKind.posK], fun stores => stores⟩

/-- A sample world with one registered system. -/
def sampleWorld : World SampleKind Nat :=
  ⟨fun _ => Storage.empty, [sampleSystem], ⟨0⟩⟩

/-- A second sample world with the same storages and systems but a different
allocator counter. -/
def sampleWorld2 : World SampleKind Nat :=
  ⟨fun _ => Storage.empty, [sampleSystem], ⟨5⟩⟩

/-- A sample world with an empty system list. -/
def sampleWorldNoSys : World SampleKind Nat :=
  ⟨fun _ => Storage.empty, [], ⟨7⟩⟩

/-- A sample storage for concrete join checks. -/
def sampleA : Storage Nat :=
  ⟨[(0, 5), (1, 6)]⟩

/-- A second sample storage for concrete join checks. -/
def sampleB : Storage Nat :=
  ⟨[(1, 7)]⟩

/-- A sample position storage. -/
def samplePos : Storage Position :=
  ⟨[(0, ⟨(1, 2)⟩)]⟩

/-- A sample velocity storage. -/
def sampleVel : Storage Velocity :=
  ⟨[(0, ⟨(3, 4)⟩)]⟩

theorem containsKey_iff_mem (e : Nat) (l : List (Nat × α)) :
    containsKey e l = true ↔ e ∈ l.map Prod.fst := by
  induction l with
  | nil => simp [containsKey]
  | cons p rest ih =>
      by_cases hpe : p.1 = e
      · simp [containsKey, hpe]
      · have hne : ¬ e = p.1 := fun hc => hpe hc.symm
        simp [containsKey, hpe, ih, hne]

theorem lookupKey_eq_none (e : Nat) (l : List (Nat × α))
    (h : containsKey e l = false) : lookupKey e l = none := by
  induction l with
  | nil => rfl
  | cons p rest ih =>
      by_cases hpe : p.1 = e
      · rw [containsKey, if_pos hpe] at h
        exact absurd h (by simp)
      · rw [containsKey, if_neg hpe] at h
        rw [lookupKey, if_neg hpe]
        exact ih h

theorem lookupKey_isSome (e : Nat) (l : List (Nat × α))
    (h : containsKey e l = true) : (lookupKey e l).isSome = true := by
  induction l with
  | nil => simp [containsKey] at h
  | cons p rest ih =>
      by_cases hpe : p.1 = e
      · simp [lookupKey, hpe]
      · rw [containsKey, if_neg hpe] at h
        rw [lookupKey, if_neg hpe]
        exact ih h

theorem lookupKey_replaceKey_self (e : Nat) (c : α) (l : List (Nat × α))
    (h : containsKey e l = true) :
    lookupKey e (replaceKey e c l) = some c := by
  induction l with
  | nil => simp [containsKey] at h
  | cons p rest ih =>
      by_cases hpe : p.1 = e
      · simp [replaceKey, hpe, lookupKey]
      · rw [containsKey, if_neg hpe] at h
        rw [replaceKey, if_neg hpe, lookupKey, if_neg hpe]
        exact ih h

theorem lookupKey_replaceKey_ne (e e' : Nat) (c : α) (l : List (Nat × α))
    (h : e' ≠ e) :
    lookupKey e' (replaceKey e c l) = lookupKey e' l := by
  induction l with
  | nil => rfl
  | cons p rest ih =>
      by_cases hpe : p.1 = e
      · have hne : ¬ e = e' := fun hc => h hc.symm
        have hpne : ¬ p.1 = e' := by rw [hpe]; exact hne
        rw [replaceKey, if_pos hpe, lookupKey, if_neg hne, lookupKey, if_neg hpne]
        exact ih
      · rw [replaceKey, if_neg hpe, lookupKey, lookupKey]
        by_cases hpe' : p.1 = e'
        · rw [if_pos hpe', if_pos hpe']
        · rw [if_neg hpe', if_neg hpe']
          exact ih

theorem lookupKey_append_single (e e' : Nat) (c : α) (l : List (Nat × α)) :
    lookupKey e' (l ++ [(e, c)]) =
      match lookupKey e' l with
      | some v => some v
      | none => if e' = e then some c else none := by
  induction l with
  | nil =>
      simp only [List.nil_append, lookupKey]
      by_cases hee : e' = e
      · rw [hee]
      · have hne : ¬ e = e' := fun hc => hee hc.symm
        simp [hne, hee]
  | cons p rest ih =>
      by_cases hpe : p.1 = e'
      · simp [lookupKey, hpe]
      · rw [List.cons_append, lookupKey, if_neg hpe, lookupKey, if_neg hpe]
        exact ih

theorem lookupKey_eraseKey (e e' : Nat) (l : List (Nat × α)) :
    lookupKey e' (eraseKey e l) =
      if e' = e then none else lookupKey e' l := by
  induction l with
  | nil => simp [eraseKey, lookupKey]
  | cons p rest ih =>
      by_cases hpe : p.1 = e
      · rw [eraseKey, if_pos hpe, ih]
        by_cases hee : e' = e
        · rw [if_pos hee, if_pos hee]
        · have hp' : ¬ p.1 = e' := by rw [hpe]; exact fun hc => hee hc.symm
          rw [if_neg hee, if_neg hee, lookupKey, if_neg hp']
      · rw [eraseKey, if_neg hpe]
        by_cases hpe' : p.1 = e'
        · have hee : ¬ e' = e := fun hc => hpe (hpe'.trans hc)
          rw [lookupKey, if_pos hpe', if_neg hee, lookupKey, if_pos hpe']
        · rw [lookupKey, if_neg hpe', ih, lookupKey, if_neg hpe']

theorem Storage.get_insert (s : Storage α) (e e' : Nat) (c : α) :
    (s.insert e c).get e' = if e' = e then some c else s.get e' := by
  unfold Storage.insert Storage.get
  by_cases h : containsKey e s.data = true
  · rw [if_pos h]
    by_cases hee : e' = e
    · rw [if_pos hee, hee]
      exact lookupKey_replaceKey_self e c s.data h
    · rw [if_neg hee]
      exact lookupKey_replaceKey_ne e e' c s.data hee
  · have hfalse : containsKey e s.data = false := by
      cases hc : containsKey e s.data
      · rfl
      · exact absurd hc h
    rw [if_neg h]
    show lookupKey e' (s.data ++ [(e, c)]) = _
    rw [lookupKey_append_single]
    by_cases hee : e' = e
    · rw [if_pos hee, hee, lookupKey_eq_none e s.data hfalse]
      simp
    · cases hl : lookupKey e' s.data <;> simp [hee, hl]

theorem Storage.get_remove (s : Storage α) (e e' : Nat) :
    (s.remove e).get e' = if e' = e then none else s.get e' := by
  unfold Storage.remove Storage.get
  exact lookupKey_eraseKey e e' s.data

theorem keys_replaceKey (e : Nat) (c : α) (l : List (Nat × α)) :
    (replaceKey e c l).map Prod.fst = l.map Prod.fst := by
  induction l with
  | nil => rfl
  | cons p rest ih =>
      by_cases hpe : p.1 = e
      · rw [replaceKey, if_pos hpe, List.map_cons, List.map_cons, ih, hpe]
      · rw [replaceKey, if_neg hpe, List.map_cons, List.map_cons, ih]

theorem eraseKey_sublist (e : Nat) (l : List (Nat × α)) :
    (eraseKey e l).Sublist l := by
  induction l with
  | nil => simp [eraseKey]
  | cons p rest ih =>
      by_cases hpe : p.1 = e
      · rw [eraseKey, if_pos hpe]
        exact ih.cons p
      · rw [eraseKey, if_neg hpe]
        exact ih.cons₂ p

theorem Storage.keys_insert_mem (s : Storage α) (e : Nat) (c : α)
    (h : e ∈ s.keys) : (s.insert e c).keys = s.keys := by
  unfold Storage.insert Storage.keys
  rw [if_pos ((containsKey_iff_mem e s.data).2 h)]
  exact keys_replaceKey e c s.data

theorem Storage.keys_insert_new (s : Storage α) (e : Nat) (c : α)
    (h : ¬ e ∈ s.keys) : (s.insert e c).keys = s.keys ++ [e] := by
  unfold Storage.insert Storage.keys
  rw [if_neg (fun hc => h ((containsKey_iff_mem e s.data).1 hc))]
  simp

theorem Storage.nodup_insert (s : Storage α) (e : Nat) (c : α)
    (h : s.keys.Nodup) : (s.insert e c).keys.Nodup := by
  by_cases hm : e ∈ s.keys
  · rw [s.keys_insert_mem e c hm]; exact h
  · rw [s.keys_insert_new e c hm]
    refine List.Nodup.append h (by simp) ?_
    intro a ha
    simp only [List.mem_singleton]
    intro hae
    exact hm (hae ▸ ha)

theorem Storage.nodup_remove (s : Storage α) (e : Nat)
    (h : s.keys.Nodup) : (s.remove e).keys.Nodup := by
  exact List.Nodup.sublist ((eraseKey_sublist e s.data).map Prod.fst) h

theorem mem_iff_lookupKey (e : Nat) (c : α) (l : List (Nat × α))
    (h : (l.map Prod.fst).Nodup) :
    (e, c) ∈ l ↔ lookupKey e l = some c := by
  induction l with
  | nil => simp [lookupKey]
  | cons p rest ih =>
      simp only [List.map_cons, List.nodup_cons] at h
      by_cases hpe : p.1 = e
      · have hlk : lookupKey e (p :: rest) = some p.2 := by
          rw [lookupKey, if_pos hpe]
        rw [hlk]
        constructor
        · intro hm
          rcases List.mem_cons.1 hm with hm | hm
          · exact congrArg some (congrArg Prod.snd hm.symm)
          · exact absurd (hpe ▸ List.mem_map_of_mem Prod.fst hm) h.1
        · intro hsome
          have hp2 : p.2 = c := Option.some.inj hsome
          have hp : p = (e, c) := by
            cases p
            simp only [Prod.mk.injEq]
            exact ⟨hpe, hp2⟩
          rw [← hp]
          exact List.mem_cons_self p rest
      · rw [lookupKey, if_neg hpe, ← ih h.2]
        constructor
        · intro hm
          rcases List.mem_cons.1 hm with hm | hm
          · exact absurd (congrArg Prod.fst hm.symm) hpe
          · exact hm
        · intro hm
          exact List.mem_cons_of_mem p hm

theorem Storage.mem_iterate_iff_get (s : Storage α) (e : Nat) (c : α)
    (h : s.keys.Nodup) :
    (e, c) ∈ s.iterate ↔ s.get e = some c :=
  mem_iff_lookupKey e c s.data h

theorem Storage.get_isSome_iff_mem_keys (s : Storage α) (e : Nat) :
    (s.get e).isSome = true ↔ e ∈ s.keys := by
  constructor
  · intro h
    by_cases hc : containsKey e s.data = true
    · exact (containsKey_iff_mem e s.data).1 hc
    · have hfalse : containsKey e s.data = false := by
        cases hck : containsKey e s.data
        · rfl
        · exact absurd hck hc
      rw [Storage.get, lookupKey_eq_none e s.data hfalse] at h
      simp at h
  · intro h
    exact lookupKey_isSome e s.data ((containsKey_iff_mem e s.data).2 h)

theorem joinAux_keys (s2 : Storage β) (l : List (Nat × α)) :
    ((l.filterMap
        (fun p => (s2.get p.1).map (fun b => (p.1, p.2, b)))).map Prod.fst)
      = (l.map Prod.fst).filter (fun e => (s2.get e).isSome) := by
  induction l with
  | nil => rfl
  | cons p rest ih =>
      rw [List.filterMap_cons]
      cases hs : s2.get p.1 with
      | none => simp [hs, ih]
      | some b => simp [hs, ih]

theorem Storage.join2_keys (s1 : Storage α) (s2 : Storage β) :
    (Storage.join2 s1 s2).map Prod.fst =
      s1.keys.filter (fun e => (s2.get e).isSome) :=
  joinAux_keys s2 s1.data

theorem Storage.mem_join2 (s1 : Storage α) (s2 : Storage β)
    (h : s1.keys.Nodup) (e : Nat) (a : α) (b : β) :
    (e, a, b) ∈ Storage.join2 s1 s2 ↔
      s1.get e = some a ∧ s2.get e = some b := by
  unfold Storage.join2
  rw [List.mem_filterMap]
  constructor
  · rintro ⟨p, hp, hf⟩
    cases hs : s2.get p.1 with
    | none => rw [hs] at hf; simp at hf
    | some b' =>
        rw [hs] at hf
        simp only [Option.map_some'] at hf
        have h1 := Option.some.inj hf
        have he : p.1 = e := congrArg (fun t => t.1) h1
        have ha : p.2 = a := congrArg (fun t => t.2.1) h1
        have hb : b' = b := congrArg (fun t => t.2.2) h1
        constructor
        · have hpm : (e, a) ∈ s1.data := by
            have hp' : p = (e, a) := by
              cases p with
              | mk x y =>
                  simp only [Prod.mk.injEq]
                  exact ⟨he, ha⟩
            rw [← hp']
            exact hp
          exact (mem_iff_lookupKey e a s1.data h).1 hpm
        · rw [← he, hs, hb]
  · rintro ⟨h1, h2⟩
    refine ⟨(e, a), (mem_iff_lookupKey e a s1.data h).2 h1, ?_⟩
    show (s2.get e).map _ = _
    rw [h2]
    rfl

theorem join2_mem_keys_left (s1 : Storage α) (s2 : Storage β) :
    ∀ t ∈ Storage.join2 s1 s2, t.1 ∈ s1.keys := by
  intro t ht
  have hm : t.1 ∈ (Storage.join2 s1 s2).map Prod.fst :=
    List.mem_map_of_mem Prod.fst ht
  rw [Storage.join2_keys] at hm
  exact (List.mem_filter.1 hm).1

theorem join2_mem_keys_right (s1 : Storage α) (s2 : Storage β) :
    ∀ t ∈ Storage.join2 s1 s2, t.1 ∈ s2.keys := by
  intro t ht
  have hm : t.1 ∈ (Storage.join2 s1 s2).map Prod.fst :=
    List.mem_map_of_mem Prod.fst ht
  rw [Storage.join2_keys] at hm
  have h2 := (List.mem_filter.1 hm).2
  exact (Storage.get_isSome_iff_mem_keys s2 t.1).1 (by simpa using h2)

/-- C1: for storages over distinct component kinds satisfying the storage
key invariant, `join(S1, S2)` yields exactly the entities present in both
storages' entity sets, each emitted exactly once, paired with the instance
each storage currently holds for that entity. -/
theorem join2_intersection (s1 : Storage α) (s2 : Storage β)
    (h : s1.keys.Nodup) :
    ((Storage.join2 s1 s2).map Prod.fst).Nodup ∧
    (∀ e, e ∈ (Storage.join2 s1 s2).map Prod.fst ↔
      e ∈ s1.keys ∧ e ∈ s2.keys) ∧
    (∀ e a b, (e, a, b) ∈ Storage.join2 s1 s2 ↔
      s1.get e = some a ∧ s2.get e = some b) := by
  refine ⟨?_, ?_, ?_⟩
  · rw [Storage.join2_keys]
    exact h.filter _
  · intro e
    rw [Storage.join2_keys, List.mem_filter]
    constructor
    · rintro ⟨h1, h2⟩
      exact ⟨h1, (Storage.get_isSome_iff_mem_keys s2 e).1 (by simpa using h2)⟩
    · rintro ⟨h1, h2⟩
      exact ⟨h1, by simpa using (Storage.get_isSome_iff_mem_keys s2 e).2 h2⟩
  · intro e a b
    exact Storage.mem_join2 s1 s2 h e a b

/-- Witness for C1 at concrete storages over entity sets `{0, 1}` and
`{1}`. -/
theorem join2_intersection_witness :
    sampleA.keys.Nodup ∧
    (((Storage.join2 sampleA sampleB).map Prod.fst).Nodup ∧
     (∀ e, e ∈ (Storage.join2 sampleA sampleB).map Prod.fst ↔
       e ∈ sampleA.keys ∧ e ∈ sampleB.keys) ∧
     (∀ e a b, (e, a, b) ∈ Storage.join2 sampleA sampleB ↔
       sampleA.get e = some a ∧ sampleB.get e = some b)) :=
  ⟨by decide, join2_intersection sampleA sampleB (by decide)⟩

theorem joinMany_nil_aux (l : List (Nat × α)) :
    ((l.filterMap
        (fun p => (probeAll p.1 ([] : List (Storage β))).map
          (fun bs => (p.1, p.2, bs)))).map (fun t => (t.1, t.2.1))) = l := by
  induction l with
  | nil => rfl
  | cons p rest ih =>
      simp [List.filterMap_cons, probeAll] at ih ⊢
      exact ih

/-- C5: joining a single storage (no further storages to probe) produces
exactly the storage's own `iterate()` sequence: the same
(entity, instance) pairs in the same order. -/
theorem joinMany_single (s : Storage α) :
    ((Storage.joinMany s ([] : List (Storage β))).map
      (fun t => (t.1, t.2.1))) = s.iterate :=
  joinMany_nil_aux s.data

theorem get_foldl_applyOp (ops : List (StorageOp α)) (s : Storage α)
    (e : Nat) :
    (ops.foldl applyOp s).get e =
      ops.foldl
        (fun acc op =>
          match op with
          | .ins e' c => if e' = e then some c else acc
          | .rem e' => if e' = e then none else acc)
        (s.get e) := by
  induction ops generalizing s with
  | nil => rfl
  | cons op rest ih =>
      rw [List.foldl_cons, List.foldl_cons, ih]
      congr 1
      cases op with
      | ins e' c =>
          show (s.insert e' c).get e = if e' = e then some c else s.get e
          rw [Storage.get_insert]
          by_cases hee : e = e'
          · rw [if_pos hee, if_pos hee.symm]
          · rw [if_neg hee, if_neg (fun hc => hee hc.symm)]
      | rem e' =>
          show (s.remove e').get e = if e' = e then none else s.get e
          rw [Storage.get_remove]
          by_cases hee : e = e'
          · rw [if_pos hee, if_pos hee.symm]
          · rw [if_neg hee, if_neg (fun hc => hee hc.symm)]

theorem nodup_foldl_applyOp (ops : List (StorageOp α)) (s : Storage α)
    (h : s.keys.Nodup) : (ops.foldl applyOp s).keys.Nodup := by
  induction ops generalizing s with
  | nil => exact h
  | cons op rest ih =>
      rw [List.foldl_cons]
      apply ih
      cases op with
      | ins e c => exact s.nodup_insert e c h
      | rem e => exact s.nodup_remove e h

/-- C3: after replaying any finite sequence of inserts and removes on a
single storage, `get(e)` returns the instance from the last `insert(e, c)`
not followed by a `remove(e)` (absence otherwise, a repeated insert
replacing the previous instance), and `iterate()` yields exactly the
currently associated (entity, instance) pairs, each entity exactly once. -/
theorem replay_last_write (ops : List (StorageOp α)) (e : Nat) :
    ((replay ops).get e = lastWrite e ops) ∧
    (replay ops).keys.Nodup ∧
    (∀ e' c, (e', c) ∈ (replay ops).iterate ↔ (replay ops).get e' = some c) := by
  have hnd : (replay ops).keys.Nodup :=
    nodup_foldl_applyOp ops Storage.empty (by simp [Storage.empty, Storage.keys])
  refine ⟨?_, hnd, ?_⟩
  · unfold replay lastWrite
    rw [get_foldl_applyOp]
    rfl
  · intro e' c
    exact (replay ops).mem_iterate_iff_get e' c hnd

theorem runSystems_nil [DecidableEq κ] (st : κ → Storage V) :
    runSystems ([] : List (SystemM κ V)) st = st :=
  rfl

theorem runSystems_cons [DecidableEq κ] (sys : SystemM κ V)
    (rest : List (SystemM κ V)) (st : κ → Storage V) :
    runSystems (sys :: rest) st = runSystems rest (invoke st sys) :=
  rfl

theorem runSystemsLog_fst [DecidableEq κ] (systems : List (SystemM κ V))
    (st : κ → Storage V) :
    (runSystemsLog systems st).1 = runSystems systems st := by
  induction systems generalizing st with
  | nil => rfl
  | cons sys rest ih =>
      rw [runSystems_cons]
      exact ih (invoke st sys)

theorem runSystemsLog_fsts [DecidableEq κ] (systems : List (SystemM κ V))
    (st : κ → Storage V) :
    (runSystemsLog systems st).2.map Prod.fst = systems := by
  induction systems generalizing st with
  | nil => rfl
  | cons sys rest ih =>
      show (sys, sys.data.map st).1 :: _ = _
      rw [ih (invoke st sys)]

theorem runSystemsLog_args [DecidableEq κ] (systems : List (SystemM κ V))
    (st : κ → Storage V) (i : Nat) (sys : SystemM κ V)
    (h : systems.get? i = some sys) :
    (runSystemsLog systems st).2.get? i =
      some (sys, sys.data.map (runSystems (systems.take i) st)) := by
  induction systems generalizing st i with
  | nil => simp [List.get?] at h
  | cons s0 rest ih =>
      cases i with
      | zero =>
          simp only [List.get?] at h
          have hs : s0 = sys := Option.some.inj h
          rw [← hs]
          rfl
      | succ i =>
          simp only [List.get?] at h
          show (runSystemsLog rest (invoke st s0)).2.get? i = _
          rw [ih (invoke st s0) i h]
          rfl

/-- C2: one `World.run()` invokes each registered system exactly once, in
registration order, passing each the storages for its declared component
kinds: the instrumented run reaches exactly the storages `run()` produces,
its invocation log lists the registered systems in registration order, and
the arguments of the i-th invocation are the storages for the i-th system's
declared kinds, taken from the state after the first i systems ran. -/
theorem world_run_order [DecidableEq κ] (w : World κ V) (i : Nat)
    (sys : SystemM κ V) (h : w.systems.get? i = some sys) :
    ((runSystemsLog w.systems w.storages).1 = (World.run w).storages) ∧
    ((runSystemsLog w.systems w.storages).2.map Prod.fst = w.systems) ∧
    ((runSystemsLog w.systems w.storages).2.get? i =
      some (sys, sys.data.map (runSystems (w.systems.take i) w.storages))) :=
  ⟨runSystemsLog_fst w.systems w.storages,
   runSystemsLog_fsts w.systems w.storages,
   runSystemsLog_args w.systems w.storages i sys h⟩

/-- Witness for C2 at a concrete one-system world. -/
theorem world_run_order_witness :
    sampleWorld.systems.get? 0 = some sampleSystem ∧
    (((runSystemsLog sampleWorld.systems sampleWorld.storages).1 =
        (World.run sampleWorld).storages) ∧
     ((runSystemsLog sampleWorld.systems sampleWorld.storages).2.map
        Prod.fst = sampleWorld.systems) ∧
     ((runSystemsLog sampleWorld.systems sampleWorld.storages).2.get? 0 =
        some (sampleSystem, sampleSystem.data.map
          (runSystems (sampleWorld.systems.take 0) sampleWorld.storages)))) :=
  ⟨rfl, world_run_order sampleWorld 0 sampleSystem rfl⟩

/-- C4: `World.run()` is deterministic: two worlds with identical storage
contents and identical registered system lists in the same order produce
identical resulting storage contents; the step is a pure function with no
hidden randomness. -/
theorem world_run_deterministic [DecidableEq κ] (w1 w2 : World κ V)
    (h1 : w1.storages = w2.storages) (h2 : w1.systems = w2.systems) :
    (World.run w1).storages = (World.run w2).storages := by
  show runSystems w1.systems w1.storages = runSystems w2.systems w2.storages
  rw [h1, h2]

/-- Witness for C4 at two concrete worlds differing only in their allocator
counter. -/
theorem world_run_deterministic_witness :
    sampleWorld.storages = sampleWorld2.storages ∧
    sampleWorld.systems = sampleWorld2.systems ∧
    (World.run sampleWorld).storages = (World.run sampleWorld2).storages :=
  ⟨rfl, rfl, world_run_deterministic sampleWorld sampleWorld2 rfl rfl⟩

/-- C7: running a world whose registered system list is empty leaves the
contents of every storage exactly as they were. -/
theorem world_run_empty_systems [DecidableEq κ] (w : World κ V)
    (h : w.systems = []) : (World.run w).storages = w.storages := by
  show runSystems w.systems w.storages = w.storages
  rw [h]
  rfl

/-- Witness for C7 at a concrete world with no registered systems. -/
theorem world_run_empty_systems_witness :
    sampleWorldNoSys.systems = [] ∧
    (World.run sampleWorldNoSys).storages = sampleWorldNoSys.storages :=
  ⟨rfl, world_run_empty_systems sampleWorldNoSys rfl⟩

theorem createMany_ids (a : EntityAllocator) (n : Nat) :
    (a.createMany n).1 = List.range' a.next n := by
  induction n generalizing a with
  | zero => rfl
  | succ n ih =>
      show a.next :: ((⟨a.next + 1⟩ : EntityAllocator).createMany n).1 = _
      rw [ih ⟨a.next + 1⟩, List.range'_succ]

theorem World.createN_eq_createMany (w : World κ V) (n : Nat) :
    (w.createN n).1 = (w.alloc.createMany n).1 := by
  induction n generalizing w with
  | zero => rfl
  | succ n ih =>
      show w.alloc.next :: (World.createN _ n).1 = _
      rw [ih]
      rfl

/-- C6: within a single world lifetime, absent any release of entities,
every `create_entity()` call returns an identifier distinct from all
identifiers returned by earlier calls: any number of sequential creations
(in particular 10000) yields the consecutive identifiers starting at the
allocator counter, which are pairwise distinct. -/
theorem create_entity_distinct (w : World κ V) (n : Nat) :
    (w.createN n).1 = List.range' w.alloc.next n ∧ (w.createN n).1.Nodup := by
  have h : (w.createN n).1 = List.range' w.alloc.next n := by
    rw [World.createN_eq_createMany, createMany_ids]
  exact ⟨h, h ▸ List.nodup_range' _ _⟩

theorem foldl_insert_get (J : List (Nat × γ)) (f : Nat → γ → α)
    (s : Storage α) (e : Nat) (hJ : (J.map Prod.fst).Nodup) :
    (J.foldl (fun acc t => acc.insert t.1 (f t.1 t.2)) s).get e =
      match J.find? (fun t => t.1 == e) with
      | some t => some (f t.1 t.2)
      | none => s.get e := by
  induction J generalizing s with
  | nil => rfl
  | cons t0 rest ih =>
      simp only [List.map_cons, List.nodup_cons] at hJ
      rw [List.foldl_cons, ih _ hJ.2]
      by_cases hte : t0.1 = e
      · have hfr : rest.find? (fun t => t.1 == e) = none := by
          rw [List.find?_eq_none]
          intro x hx hbeq
          apply hJ.1
          have hxe : x.1 = e := by simpa using hbeq
          rw [hte, ← hxe]
          exact List.mem_map_of_mem Prod.fst hx
        rw [hfr, List.find?_cons_of_pos _ (by simpa using hte)]
        show (s.insert t0.1 (f t0.1 t0.2)).get e = _
        rw [Storage.get_insert, if_pos hte.symm]
      · rw [List.find?_cons_of_neg _ (by simpa using hte)]
        cases hfr : rest.find? (fun t => t.1 == e) with
        | some t => rfl
        | none =>
            show (s.insert t0.1 (f t0.1 t0.2)).get e = s.get e
            rw [Storage.get_insert, if_neg (fun hc => hte hc.symm)]

theorem foldl_insert_keys (J : List (Nat × γ)) (f : Nat → γ → α)
    (s : Storage α) (hsub : ∀ t ∈ J, t.1 ∈ s.keys) :
    (J.foldl (fun acc t => acc.insert t.1 (f t.1 t.2)) s).keys = s.keys := by
  induction J generalizing s with
  | nil => rfl
  | cons t0 rest ih =>
      rw [List.foldl_cons]
      have hk : (s.insert t0.1 (f t0.1 t0.2)).keys = s.keys :=
        s.keys_insert_mem _ _ (hsub t0 (List.mem_cons_self t0 rest))
      have hsub' : ∀ t ∈ rest, t.1 ∈ (s.insert t0.1 (f t0.1 t0.2)).keys := by
        intro t ht
        rw [hk]
        exact hsub t (List.mem_cons_of_mem t0 ht)
      rw [ih _ hsub', hk]

theorem joinAux_find? (s2 : Storage β) (e : Nat) (l : List (Nat × α))
    (h : (l.map Prod.fst).Nodup) :
    ((l.filterMap
        (fun p => (s2.get p.1).map (fun b => (p.1, p.2, b)))).find?
          (fun t => t.1 == e)) =
      joinSpec e (lookupKey e l) (s2.get e) := by
  induction l with
  | nil => cases s2.get e <;> rfl
  | cons p rest ih =>
      simp only [List.map_cons, List.nodup_cons] at h
      rw [List.filterMap_cons]
      by_cases hpe : p.1 = e
      · have hlk : lookupKey e (p :: rest) = some p.2 := by
          rw [lookupKey, if_pos hpe]
        rw [hlk]
        have hrest : ((rest.filterMap
            (fun p => (s2.get p.1).map (fun b => (p.1, p.2, b)))).find?
              (fun t => t.1 == e)) = none := by
          rw [ih h.2]
          have hlkr : lookupKey e rest = none := by
            apply lookupKey_eq_none
            cases hck : containsKey e rest
            · rfl
            · have hm := (containsKey_iff_mem e rest).1 hck
              rw [← hpe] at hm
              exact absurd hm h.1
          rw [hlkr]
          rfl
        cases hs2 : s2.get p.1 with
        | none =>
            simp only [Option.map_none']
            rw [hrest]
            rw [hpe] at hs2
            rw [hs2]
            rfl
        | some b =>
            simp only [Option.map_some']
            rw [List.find?_cons_of_pos _ (by simpa using hpe)]
            rw [hpe] at hs2
            rw [hs2, hpe]
            rfl
      · have hlk : lookupKey e (p :: rest) = lookupKey e rest := by
          rw [lookupKey, if_neg hpe]
        rw [hlk, ← ih h.2]
        cases hs2 : s2.get p.1 with
        | none => simp only [Option.map_none']
        | some b =>
            simp only [Option.map_some']
            rw [List.find?_cons_of_neg _ (by simpa using hpe)]

theorem Storage.get_def (s : Storage α) (e : Nat) :
    s.get e = lookupKey e s.data :=
  rfl

theorem Storage.join2_find? (s1 : Storage α) (s2 : Storage β) (e : Nat)
    (h : s1.keys.Nodup) :
    ((Storage.join2 s1 s2).find? (fun t => t.1 == e)) =
      joinSpec e (s1.get e) (s2.get e) := by
  unfold Storage.join2
  rw [Storage.get_def s1 e]
  exact joinAux_find? s2 e s1.data h

theorem join2_fst_nodup (s1 : Storage α) (s2 : Storage β)
    (h : s1.keys.Nodup) : ((Storage.join2 s1 s2).map Prod.fst).Nodup := by
  rw [Storage.join2_keys]
  exact h.filter _

/-- C8: one `MovementSystem.run` adds, for every entity present in both
storages, the entity's velocity vector componentwise to its position
(`p[0] += v[0]`, `p[1] += v[1]`), leaves entities absent from the velocity
storage at their old position, changes no velocity component, and changes no
entry of either storage's entity set. -/
theorem movement_run_correct (P : Storage Position) (W : Storage Velocity)
    (h : P.keys.Nodup) :
    ((MovementSystem.run P W).2 = W) ∧
    ((MovementSystem.run P W).1.keys = P.keys) ∧
    (∀ e pos vel, P.get e = some pos → W.get e = some vel →
      (MovementSystem.run P W).1.get e =
        some ⟨(pos.p.1 + vel.v.1, pos.p.2 + vel.v.2)⟩) ∧
    (∀ e, W.get e = none → (MovementSystem.run P W).1.get e = P.get e) := by
  refine ⟨rfl, ?_, ?_, ?_⟩
  · show ((Storage.join2 P W).foldl
        (fun acc t => acc.insert t.1 (movementBody t.2.1 t.2.2)) P).keys
      = P.keys
    exact foldl_insert_keys (Storage.join2 P W)
      (fun _ c => movementBody c.1 c.2) P (join2_mem_keys_left P W)
  · intro e pos vel hp hw
    show ((Storage.join2 P W).foldl
        (fun acc t => acc.insert t.1 (movementBody t.2.1 t.2.2)) P).get e = _
    rw [foldl_insert_get (Storage.join2 P W)
          (fun _ c => movementBody c.1 c.2) P e (join2_fst_nodup P W h),
        Storage.join2_find? P W e h, hp, hw]
    rfl
  · intro e hw
    show ((Storage.join2 P W).foldl
        (fun acc t => acc.insert t.1 (movementBody t.2.1 t.2.2)) P).get e
      = P.get e
    rw [foldl_insert_get (Storage.join2 P W)
          (fun _ c => movementBody c.1 c.2) P e (join2_fst_nodup P W h),
        Storage.join2_find? P W e h, hw]
    cases P.get e <;> rfl

/-- Witness for C8 at a concrete one-entity pair of storages. -/
theorem movement_run_correct_witness :
    samplePos.keys.Nodup ∧
    (((MovementSystem.run samplePos sampleVel).2 = sampleVel) ∧
     ((MovementSystem.run samplePos sampleVel).1.keys = samplePos.keys) ∧
     (∀ e pos vel, samplePos.get e = some pos → sampleVel.get e = some vel →
       (MovementSystem.run samplePos sampleVel).1.get e =
         some ⟨(pos.p.1 + vel.v.1, pos.p.2 + vel.v.2)⟩) ∧
     (∀ e, sampleVel.get e = none →
       (MovementSystem.run samplePos sampleVel).1.get e = samplePos.get e)) :=
  ⟨by decide, movement_run_correct samplePos sampleVel (by decide)⟩

/-- C9: one `BounceSystem.run` negates, for every entity present in both
storages, the x-velocity exactly when `p[0] <= 0 or p[0] >= 50` and
independently the y-velocity exactly when `p[1] <= 0 or p[1] >= 50`; it
leaves every position unchanged (no clamping back into the box), leaves
entities absent from the position storage with their old velocity, and
changes no entry of either storage's entity set. -/
theorem bounce_run_correct (P : Storage Position) (W : Storage Velocity)
    (h : P.keys.Nodup) :
    ((BounceSystem.run P W).1 = P) ∧
    ((BounceSystem.run P W).2.keys = W.keys) ∧
    (∀ e pos vel, P.get e = some pos → W.get e = some vel →
      (BounceSystem.run P W).2.get e =
        some ⟨(if pos.p.1 ≤ 0 ∨ 50 ≤ pos.p.1 then -vel.v.1 else vel.v.1,
               if pos.p.2 ≤ 0 ∨ 50 ≤ pos.p.2 then -vel.v.2 else vel.v.2)⟩) ∧
    (∀ e, P.get e = none → (BounceSystem.run P W).2.get e = W.get e) := by
  refine ⟨rfl, ?_, ?_, ?_⟩
  · show ((Storage.join2 P W).foldl
        (fun acc t => acc.insert t.1 (bounceBody t.2.1 t.2.2)) W).keys
      = W.keys
    exact foldl_insert_keys (Storage.join2 P W)
      (fun _ c => bounceBody c.1 c.2) W (join2_mem_keys_right P W)
  · intro e pos vel hp hw
    show ((Storage.join2 P W).foldl
        (fun acc t => acc.insert t.1 (bounceBody t.2.1 t.2.2)) W).get e = _
    rw [foldl_insert_get (Storage.join2 P W)
          (fun _ c => bounceBody c.1 c.2) W e (join2_fst_nodup P W h),
        Storage.join2_find? P W e h, hp, hw]
    rfl
  · intro e hp
    show ((Storage.join2 P W).foldl
        (fun acc t => acc.insert t.1 (bounceBody t.2.1 t.2.2)) W).get e
      = W.get e
    rw [foldl_insert_get (Storage.join2 P W)
          (fun _ c => bounceBody c.1 c.2) W e (join2_fst_nodup P W h),
        Storage.join2_find? P W e h, hp]
    rfl

/-- Witness for C9 at a concrete one-entity pair of storages. -/
theorem bounce_run_correct_witness :
    samplePos.keys.Nodup ∧
    (((BounceSystem.run samplePos sampleVel).1 = samplePos) ∧
     ((BounceSystem.run samplePos sampleVel).2.keys = sampleVel.keys) ∧
     (∀ e pos vel, samplePos.get e = some pos → sampleVel.get e = some vel →
       (BounceSystem.run samplePos sampleVel).2.get e =
         some ⟨(if pos.p.1 ≤ 0 ∨ 50 ≤ pos.p.1 then -vel.v.1 else vel.v.1,
                if pos.p.2 ≤ 0 ∨ 50 ≤ pos.p.2 then -vel.v.2 else vel.v.2)⟩) ∧
     (∀ e, samplePos.get e = none →
       (BounceSystem.run samplePos sampleVel).2.get e = sampleVel.get e)) :=
  ⟨by decide, bounce_run_correct samplePos sampleVel (by decide)⟩

theorem movementRun_keys (P : Storage Position) (W : Storage Velocity) :
    (MovementSystem.run P W).1.keys = P.keys := by
  show ((Storage.join2 P W).foldl
      (fun acc t => acc.insert t.1 (movementBody t.2.1 t.2.2)) P).keys
    = P.keys
  exact foldl_insert_keys (Storage.join2 P W)
    (fun _ c => movementBody c.1 c.2) P (join2_mem_keys_left P W)

theorem bounceRun_keys (P : Storage Position) (W : Storage Velocity) :
    (BounceSystem.run P W).2.keys = W.keys := by
  show ((Storage.join2 P W).foldl
      (fun acc t => acc.insert t.1 (bounceBody t.2.1 t.2.2)) W).keys
    = W.keys
  exact foldl_insert_keys (Storage.join2 P W)
    (fun _ c => bounceBody c.1 c.2) W (join2_mem_keys_right P W)

theorem bouncyTick_keys (st : Storage Position × Storage Velocity) :
    (bouncyTick st).1.keys = st.1.keys ∧
    (bouncyTick st).2.keys = st.2.keys := by
  constructor
  · show (MovementSystem.run st.1 st.2).1.keys = st.1.keys
    exact movementRun_keys st.1 st.2
  · show (BounceSystem.run (MovementSystem.run st.1 st.2).1
        (MovementSystem.run st.1 st.2).2).2.keys = st.2.keys
    rw [bounceRun_keys]
    rfl

theorem bouncyTick_iterate_keys (st : Storage Position × Storage Velocity)
    (n : Nat) :
    ((bouncyTick^[n]) st).1.keys = st.1.keys ∧
    ((bouncyTick^[n]) st).2.keys = st.2.keys := by
  induction n with
  | zero => exact ⟨rfl, rfl⟩
  | succ n ih =>
      rw [Function.iterate_succ_apply']
      have h := bouncyTick_keys ((bouncyTick^[n]) st)
      exact ⟨h.1.trans ih.1, h.2.trans ih.2⟩

theorem initStateAux_keys (pIni vIni : Nat → ℚ × ℚ) (ents : List Nat)
    (sp : Storage Position) (sv : Storage Velocity)
    (hdp : ∀ e ∈ ents, ¬ e ∈ sp.keys) (hdv : ∀ e ∈ ents, ¬ e ∈ sv.keys)
    (hnd : ents.Nodup) :
    ((initStateAux pIni vIni ents (sp, sv)).1.keys = sp.keys ++ ents) ∧
    ((initStateAux pIni vIni ents (sp, sv)).2.keys = sv.keys ++ ents) := by
  induction ents generalizing sp sv with
  | nil => simp [initStateAux]
  | cons e rest ih =>
      simp only [List.nodup_cons] at hnd
      have hk1 : (sp.insert e ⟨pIni e⟩).keys = sp.keys ++ [e] :=
        sp.keys_insert_new e _ (hdp e (List.mem_cons_self e rest))
      have hk2 : (sv.insert e ⟨vIni e⟩).keys = sv.keys ++ [e] :=
        sv.keys_insert_new e _ (hdv e (List.mem_cons_self e rest))
      have hdp' : ∀ x ∈ rest, ¬ x ∈ (sp.insert e ⟨pIni e⟩).keys := by
        intro x hx
        rw [hk1]
        intro hmem
        rcases List.mem_append.1 hmem with hm | hm
        · exact hdp x (List.mem_cons_of_mem e hx) hm
        · rw [List.mem_singleton] at hm
          exact hnd.1 (hm ▸ hx)
      have hdv' : ∀ x ∈ rest, ¬ x ∈ (sv.insert e ⟨vIni e⟩).keys := by
        intro x hx
        rw [hk2]
        intro hmem
        rcases List.mem_append.1 hmem with hm | hm
        · exact hdv x (List.mem_cons_of_mem e hx) hm
        · rw [List.mem_singleton] at hm
          exact hnd.1 (hm ▸ hx)
      have heq : initStateAux pIni vIni (e :: rest) (sp, sv) =
          initStateAux pIni vIni rest
            (sp.insert e ⟨pIni e⟩, sv.insert e ⟨vIni e⟩) := rfl
      rw [heq]
      have hrec := ih (sp.insert e ⟨pIni e⟩) (sv.insert e ⟨vIni e⟩)
        hdp' hdv' hnd.2
      constructor
      · rw [hrec.1, hk1, List.append_assoc]
        rfl
      · rw [hrec.2, hk2, List.append_assoc]
        rfl

theorem initState_keys (ents : List Nat) (pIni vIni : Nat → ℚ × ℚ)
    (hnd : ents.Nodup) :
    (initState ents pIni vIni).1.keys = ents ∧
    (initState ents pIni vIni).2.keys = ents := by
  have h := initStateAux_keys pIni vIni ents Storage.empty Storage.empty
    (by intro e he; simp [Storage.empty, Storage.keys])
    (by intro e he; simp [Storage.empty, Storage.keys]) hnd
  simpa [Storage.empty, Storage.keys, initState] using h

/-- C10: after the notebook's initialization loop — 20 entities allocated by
the fresh world's allocator, each given a position and a velocity component
— the position and velocity storages hold exactly the same entity set (the
20 created entities); every subsequent tick (`MovementSystem` then
`BounceSystem`, as registered) preserves both entity sets, since the systems
only replace component instances of already-present entities; hence each
tick's join visits exactly those 20 entities. -/
theorem bouncy_world_entity_sets (pIni vIni : Nat → ℚ × ℚ) (n : Nat) :
    (((bouncyTick^[n]) (initState (EntityAllocator.createMany ⟨0⟩ 20).1
        pIni vIni)).1.keys = (EntityAllocator.createMany ⟨0⟩ 20).1) ∧
    (((bouncyTick^[n]) (initState (EntityAllocator.createMany ⟨0⟩ 20).1
        pIni vIni)).2.keys = (EntityAllocator.createMany ⟨0⟩ 20).1) ∧
    ((Storage.join2
        ((bouncyTick^[n]) (initState (EntityAllocator.createMany ⟨0⟩ 20).1
          pIni vIni)).1
        ((bouncyTick^[n]) (initState (EntityAllocator.createMany ⟨0⟩ 20).1
          pIni vIni)).2).map Prod.fst
      = (EntityAllocator.createMany ⟨0⟩ 20).1) ∧
    ((EntityAllocator.createMany ⟨0⟩ 20).1.length = 20) := by
  have hids : (EntityAllocator.createMany ⟨0⟩ 20).1 = List.range' 0 20 :=
    createMany_ids ⟨0⟩ 20
  have hnd : (EntityAllocator.createMany ⟨0⟩ 20).1.Nodup := by
    rw [hids]
    exact List.nodup_range' _ _
  have hinit := initState_keys (EntityAllocator.createMany ⟨0⟩ 20).1
    pIni vIni hnd
  have hiter := bouncyTick_iterate_keys
    (initState (EntityAllocator.createMany ⟨0⟩ 20).1 pIni vIni) n
  have h1 := hiter.1.trans hinit.1
  have h2 := hiter.2.trans hinit.2
  refine ⟨h1, h2, ?_, by rw [hids]; simp⟩
  rw [Storage.join2_keys, h1]
  apply List.filter_eq_self.2
  intro e he
  have hm : e ∈ ((bouncyTick^[n]) (initState
      (EntityAllocator.createMany ⟨0⟩ 20).1 pIni vIni)).2.keys := by
    rw [h2]
    exact he
  simpa using (Storage.get_isSome_iff_mem_keys _ e).2 hm

end PySpecs
